import Mathlib

/-!
Verification of the scrago crawling engine against its specification.

The Go source is shallowly embedded: pure Lean functions mirror the Go
functions, goroutine channels become explicit lists of delivered values,
and in-place mutation becomes explicit state passing.  Machine integers
(`int`, `int64`) are modelled as `Int`; the counters involved never
approach overflow in any claim considered here.
-/

namespace Scrago

/-! ## Small list helpers (indexing with defaults) -/

theorem getD_set_eq {α : Type} : ∀ (l : List α) (i : Nat) (a d : α),
    i < l.length → (l.set i a).getD i d = a
  | _ :: _, 0, _, _, _ => rfl
  | _ :: xs, i + 1, a, d, h => getD_set_eq xs i a d (Nat.lt_of_succ_lt_succ h)

theorem getD_set_ne {α : Type} : ∀ (l : List α) (i k : Nat) (a d : α),
    i ≠ k → (l.set i a).getD k d = l.getD k d
  | [], _, _, _, _, _ => rfl
  | _ :: _, 0, 0, _, _, h => absurd rfl h
  | _ :: _, 0, _ + 1, _, _, _ => rfl
  | _ :: _, _ + 1, 0, _, _, _ => rfl
  | _ :: xs, i + 1, k + 1, a, d, h =>
      getD_set_ne xs i k a d (fun he => h (congrArg Nat.succ he))

theorem getD_append_lt {α : Type} : ∀ (l m : List α) (k : Nat) (d : α),
    k < l.length → (l ++ m).getD k d = l.getD k d
  | _ :: _, _, 0, _, _ => rfl
  | _ :: xs, m, k + 1, d, h => getD_append_lt xs m k d (Nat.lt_of_succ_lt_succ h)

theorem getD_take_lt {α : Type} : ∀ (l : List α) (n k : Nat) (d : α),
    k < n → (l.take n).getD k d = l.getD k d
  | [], _, _, _, _ => by simp
  | _ :: _, _ + 1, 0, _, _ => rfl
  | x :: xs, n + 1, k + 1, d, h => getD_take_lt xs n k d (Nat.lt_of_succ_lt_succ h)

/-! ## Data model: `request.Request` (src/request/request.go)

`Meta` (a Go map with dynamically typed values), `Cookies` and the cached selector hold
dynamically typed values that no verified operation reads; they are not
modelled.  `Timeout` is in nanoseconds as Go `time.Duration`. -/

structure Request where
  Method : String := ""
  URL : String := ""
  Headers : List (String × List String) := []
  Body : List UInt8 := []
  Priority : Int := 0
  RetryTimes : Int := 0
  DontRetry : Bool := false
  Callback : String := ""
  Proxy : String := ""
  Timeout : Int := 0
  DontRedirect : Bool := false
deriving DecidableEq, Inhabited

/-- Go `request.NewRequest`: fresh headers and meta, priority 0, 30s timeout. -/
def NewRequest (method rawURL : String) : Request :=
  { Method := method
    URL := rawURL
    Headers := []
    Priority := 0
    Timeout := 30000000000 }

/-- Go `Request.SetPriority`. -/
def Request.SetPriority (r : Request) (priority : Int) : Request :=
  { r with Priority := priority }

/-! ## Data model: `response.Response` (src/unnamed/part_000) -/

structure Response where
  URL : String := ""
  StatusCode : Int := 0
  Headers : List (String × List String) := []
  Body : List UInt8 := []
  Request : Request := {}
  Encoding : String := "utf-8"
deriving DecidableEq, Inhabited

/-! ## Schedulers (src/scheduler/scheduler.go)

Each Go scheduler guards its state with a mutex; under the single-threaded
use the claims consider, the methods are the pure state transformers below.
`Dequeue` returns the dequeued request (Go `nil` becomes `none`) together
with the post-state. -/

structure FIFOScheduler where
  queue : List Request
deriving DecidableEq, Inhabited

def NewFIFOScheduler : FIFOScheduler := ⟨[]⟩

def FIFOScheduler.Enqueue (s : FIFOScheduler) (req : Request) : FIFOScheduler :=
  ⟨s.queue ++ [req]⟩

def FIFOScheduler.Dequeue (s : FIFOScheduler) : Option Request × FIFOScheduler :=
  match s.queue with
  | [] => (none, s)
  | req :: rest => (some req, ⟨rest⟩)

def FIFOScheduler.Empty (s : FIFOScheduler) : Bool := s.queue.length == 0

def FIFOScheduler.Size (s : FIFOScheduler) : Nat := s.queue.length

structure LIFOScheduler where
  stack : List Request
deriving DecidableEq, Inhabited

def NewLIFOScheduler : LIFOScheduler := ⟨[]⟩

def LIFOScheduler.Enqueue (s : LIFOScheduler) (req : Request) : LIFOScheduler :=
  ⟨s.stack ++ [req]⟩

def LIFOScheduler.Dequeue (s : LIFOScheduler) : Option Request × LIFOScheduler :=
  if s.stack.length == 0 then (none, s)
  else (s.stack.getLast?, ⟨s.stack.dropLast⟩)

def LIFOScheduler.Empty (s : LIFOScheduler) : Bool := s.stack.length == 0

def LIFOScheduler.Size (s : LIFOScheduler) : Nat := s.stack.length

/-! ### Priority scheduler and its binary heap

`PriorityScheduler` wraps Go `container/heap` over `PriorityQueue`
(a slice of `*PriorityItem` with `Less i j = pq[i].Priority > pq[j].Priority`,
a max-heap on priority).  The slice is a `List PriorityItem`; the
`up`/`down` loops of `container/heap` are written with an explicit fuel
argument (`fuel` bounds the number of loop iterations, and every caller
passes enough fuel, so the functions compute exactly the Go loops). -/

structure PriorityItem where
  Request : Request := {}
  Priority : Int := 0
  Index : Int := 0
deriving DecidableEq, Inhabited

def itemAt (pq : List PriorityItem) (k : Nat) : PriorityItem :=
  pq.getD k default

def priAt (pq : List PriorityItem) (k : Nat) : Int :=
  (itemAt pq k).Priority

/-- The parent slot of heap slot `j`, `i := (j - 1) / 2` in `container/heap`
(the root is its own parent). -/
def parentIdx (j : Nat) : Nat := (j - 1) / 2

/-- Go `PriorityQueue.Less i j`: true when index `i` has the higher priority. -/
def pqLess (pq : List PriorityItem) (i j : Nat) : Bool :=
  decide (priAt pq j < priAt pq i)

/-- Go `PriorityQueue.Swap`: exchange slots `i` and `j`, then fix both `Index`
fields (`pq[i].Index = i; pq[j].Index = j`). -/
def pqSwap (pq : List PriorityItem) (i j : Nat) : List PriorityItem :=
  let a := itemAt pq i
  let b := itemAt pq j
  (pq.set i { b with Index := Int.ofNat i }).set j { a with Index := Int.ofNat j }

/-- Go `container/heap.up`, with `fuel` bounding the iterations: while `j` is
not the root and `Less j parent`, swap with the parent and continue there.
Every caller passes `fuel = j`, which covers all iterations since the
index strictly decreases. -/
def heapUpAux : Nat → List PriorityItem → Nat → List PriorityItem
  | _, pq, 0 => pq
  | 0, pq, _ + 1 => pq
  | fuel + 1, pq, j + 1 =>
      if pqLess pq (j + 1) (parentIdx (j + 1)) then
        heapUpAux fuel (pqSwap pq (parentIdx (j + 1)) (j + 1)) (parentIdx (j + 1))
      else pq

def heapUp (pq : List PriorityItem) (j : Nat) : List PriorityItem :=
  heapUpAux j pq j

/-- The child `j` chosen by one `container/heap.down` iteration at `i`
(range bound `n`): the left child `2i+1`, or the right child when it
exists below `n` and wins the `Less` comparison. -/
def downChild (pq : List PriorityItem) (i n : Nat) : Nat :=
  if 2 * i + 2 < n ∧ pqLess pq (2 * i + 2) (2 * i + 1) then 2 * i + 2
  else 2 * i + 1

/-- Go `container/heap.down` restricted below `n`, with fuel: descend from `i`
to its chosen child while that child wins the `Less` comparison.  Every
caller passes `fuel = n - i`, which covers all iterations since the index
strictly increases toward `n`. -/
def heapDownAux : Nat → List PriorityItem → Nat → Nat → List PriorityItem
  | 0, pq, _, _ => pq
  | fuel + 1, pq, i, n =>
      if n ≤ 2 * i + 1 then pq
      else
        if pqLess pq (downChild pq i n) i then
          heapDownAux fuel (pqSwap pq i (downChild pq i n)) (downChild pq i n) n
        else pq

def heapDown (pq : List PriorityItem) (i n : Nat) : List PriorityItem :=
  heapDownAux (n - i) pq i n

/-- Go `PriorityQueue.Push`: set the new item's index and append it. -/
def pqPush (pq : List PriorityItem) (item : PriorityItem) : List PriorityItem :=
  pq ++ [{ item with Index := Int.ofNat pq.length }]

/-- Go `container/heap.Push`: append, then sift the last slot up. -/
def heapPush (pq : List PriorityItem) (item : PriorityItem) : List PriorityItem :=
  heapUp (pqPush pq item) pq.length

/-- Go `container/heap.Pop` followed by `PriorityQueue.Pop`: swap the root with
the last slot, sift the root down over the shortened range, then remove and
return the last slot (its `Index` is set to -1). -/
def heapPop (pq : List PriorityItem) : PriorityItem × List PriorityItem :=
  let n := pq.length - 1
  let pq2 := heapDown (pqSwap pq 0 n) 0 n
  ({ itemAt pq2 n with Index := -1 }, pq2.take n)

structure PriorityScheduler where
  queue : List PriorityItem
deriving DecidableEq, Inhabited

def NewPriorityScheduler : PriorityScheduler := ⟨[]⟩

def PriorityScheduler.Enqueue (s : PriorityScheduler) (req : Request) :
    PriorityScheduler :=
  ⟨heapPush s.queue { Request := req, Priority := req.Priority, Index := 0 }⟩

def PriorityScheduler.Dequeue (s : PriorityScheduler) :
    Option Request × PriorityScheduler :=
  if s.queue.length == 0 then (none, s)
  else
    let r := heapPop s.queue
    (some r.1.Request, ⟨r.2⟩)

def PriorityScheduler.Empty (s : PriorityScheduler) : Bool := s.queue.length == 0

def PriorityScheduler.Size (s : PriorityScheduler) : Nat := s.queue.length

/-! ### Channel scheduler

`ChannelScheduler` holds a buffered channel and an atomic size counter.
The channel buffer is the list `buffer` (capacity `capacity`); a
`select`-with-`default` send that finds the buffer full spawns a detached
goroutine, modelled by appending to `pendingSends`.  `deliverPending` is
the moment such a detached send completes: only then is `size` bumped. -/

structure ChannelScheduler where
  capacity : Nat
  buffer : List Request
  size : Int
  pendingSends : List Request
deriving DecidableEq, Inhabited

def NewChannelScheduler (bufferSize : Nat) : ChannelScheduler :=
  { capacity := bufferSize, buffer := [], size := 0, pendingSends := [] }

def ChannelScheduler.Enqueue (s : ChannelScheduler) (req : Request) :
    ChannelScheduler :=
  if s.buffer.length < s.capacity then
    { s with buffer := s.buffer ++ [req], size := s.size + 1 }
  else
    { s with pendingSends := s.pendingSends ++ [req] }

def ChannelScheduler.deliverPending (s : ChannelScheduler) : ChannelScheduler :=
  match s.pendingSends with
  | [] => s
  | req :: rest =>
      if s.buffer.length < s.capacity then
        { s with buffer := s.buffer ++ [req], size := s.size + 1,
                 pendingSends := rest }
      else s

def ChannelScheduler.Dequeue (s : ChannelScheduler) :
    Option Request × ChannelScheduler :=
  match s.buffer with
  | [] => (none, s)
  | req :: rest => (some req, { s with buffer := rest, size := s.size - 1 })

def ChannelScheduler.Empty (s : ChannelScheduler) : Bool := s.size == 0

def ChannelScheduler.Size (s : ChannelScheduler) : Int := s.size

/-! ## Downloader (src/spiders/README.md, package downloader)

`Download` returns `(*Response, error)`; here a download attempt is a
function `Request → Except String Response` (network, proxy and
decompression failures all surface as `Except.error`, never as a panic).
`AsyncResult` mirrors the Go struct. -/

structure AsyncResult where
  Request : Request
  Response : Option Response
  Error : Option String
deriving DecidableEq, Inhabited

/-- Wrap one download result the way `DownloadAsync`/`DownloadBatch`
goroutines build their `AsyncResult`. -/
def mkAsyncResult (r : Request) : Except String Response → AsyncResult
  | .error e => { Request := r, Response := none, Error := some e }
  | .ok resp => { Request := r, Response := some resp, Error := none }

/-- The stream returned by `DownloadBatch`: a channel with buffer
`capacity`, and `sent` the outcomes delivered before `close(resultChan)`.
In the Go code the channel is created with capacity `len(reqs)`, one
goroutine per request sends exactly one `AsyncResult` (success or
failure), and a final goroutine closes the channel only after
`wg.Wait()` has seen every sender finish.  Completion order is
arbitrary; `sent` records submission order. -/
structure BatchChannel where
  capacity : Nat
  sent : List AsyncResult
deriving DecidableEq, Inhabited

/-- Go `HTTPDownloader.DownloadBatch`. -/
def DownloadBatch (download : Request → Except String Response)
    (reqs : List Request) : BatchChannel :=
  { capacity := reqs.length
    sent := reqs.map (fun r => mkAsyncResult r (download r)) }

/-- The `CheckRedirect` closure installed by `NewHTTPDownloader`:
`via` is the chain of prior requests handed over by the HTTP client; the
fetch is failed once 10 redirects have been followed. -/
def redirectErrorMessage : String := "stopped after 10 redirects"

def checkRedirect (via : List Request) : Option String :=
  if 10 ≤ via.length then some redirectErrorMessage else none

/-- Boundary model of the HTTP client redirect loop: `chain` redirect
responses remain; before following each one the client consults
`checkRedirect` with `via`, the requests already made (oldest first),
aborting the fetch with the returned error value; each followed redirect
appends its request to `via`.  On success it returns the total number of
requests made. -/
def clientFollow (req : Request) : Nat → List Request → Except String Nat
  | 0, via => .ok via.length
  | chain + 1, via =>
      match checkRedirect via with
      | some e => .error e
      | none => clientFollow req chain (via ++ [req])

/-- A whole fetch against a target issuing `chain` redirect responses:
when `CheckRedirect` is first consulted, `via` already holds the initial
request (net/http hands over every request made so far).  Returns the
total number of requests made, or the redirect error. -/
def clientFetch (req : Request) (chain : Nat) : Except String Nat :=
  clientFollow req chain [req]

/-! ## Middleware (src/unnamed/part_001)

A middleware is the pair of hooks of the Go `Middleware` interface; a Go
`nil` return (dropping the request or response) becomes `none`.  The Go
hooks mutate the request in place, so the modelled `ProcessResponse` of
`RetryMiddleware` returns the updated request alongside the response. -/

structure MiddlewareModel where
  ProcessRequest : Request → Option Request
  ProcessResponse : Request → Response → Option Response

structure RetryMiddleware where
  maxRetries : Int
  retryHTTPCodes : List Int
deriving DecidableEq, Inhabited

def defaultRetryCodes : List Int := [500, 502, 503, 504, 408, 429]

def NewRetryMiddleware (maxRetries : Int) (retryHTTPCodes : List Int) :
    RetryMiddleware :=
  if retryHTTPCodes.length == 0 then
    { maxRetries := maxRetries, retryHTTPCodes := defaultRetryCodes }
  else
    { maxRetries := maxRetries, retryHTTPCodes := retryHTTPCodes }

/-- Go `RetryMiddleware.shouldRetry`: linear scan of the retry status list. -/
def RetryMiddleware.shouldRetry (m : RetryMiddleware) (statusCode : Int) : Bool :=
  m.retryHTTPCodes.any (fun code => code == statusCode)

/-- Go `RetryMiddleware.ProcessResponse`: when the status is retryable and the
retry budget is not exhausted, increment `req.RetryTimes` (the Go code then
only logs; nothing is rescheduled).  The response is returned as received. -/
def RetryMiddleware.ProcessResponse (m : RetryMiddleware) (req : Request)
    (resp : Response) : Request × Response :=
  if m.shouldRetry resp.StatusCode ∧ req.RetryTimes < m.maxRetries then
    ({ req with RetryTimes := req.RetryTimes + 1 }, resp)
  else
    (req, resp)

/-! ## Worker polling loop (src/engine/engine.go, `worker`)

One loop iteration dequeues once and branches on what it saw; the branch
taken is the observation.  `ctx.Done()` cannot fire while workers run
(`Run` cancels the context only after `wg.Wait()` returns), so the loop
exits only through the empty-count threshold. -/

inductive WorkerObs where
  | dequeued (req : Request)
  | emptyIdle
  | busyIdle
deriving DecidableEq, Inhabited

def maxEmptyCount : Nat := 100

/-- One iteration of the `worker` loop body: returns the new
`emptyCount` and whether the worker returned.
`dequeued`: a request came back, counter resets, request is processed.
`emptyIdle`: `Dequeue` gave nil and `Empty()` held, counter bumps and the
worker exits at the threshold.
`busyIdle`: `Dequeue` gave nil but `Empty()` failed, counter resets. -/
def workerStep (emptyCount : Nat) : WorkerObs → Nat × Bool
  | .dequeued _ => (0, false)
  | .emptyIdle => (emptyCount + 1, decide (maxEmptyCount ≤ emptyCount + 1))
  | .busyIdle => (0, false)

/-- Run the worker loop over a list of observations; `some k` means the
worker exited right after consuming the k-th observation (1-based),
`none` that it was still polling when the list ran out. -/
def workerRun : Nat → List WorkerObs → Option Nat
  | _, [] => none
  | c, o :: rest =>
      let s := workerStep c o
      if s.2 then some 1
      else
        match workerRun s.1 rest with
        | none => none
        | some k => some (k + 1)

/-! ## Engine statistics (src/engine/engine.go) -/

structure Stats where
  RequestsTotal : Int := 0
  RequestsSuccess : Int := 0
  RequestsFailed : Int := 0
  ItemsScraped : Int := 0
deriving DecidableEq, Inhabited

/-- Go `Engine.updateStats` (the mutex around the Go counters serialises the
increments; the fold below is one such serialisation). -/
def updateStats (s : Stats) (key : String) (value : Int) : Stats :=
  match key with
  | "request_total" => { s with RequestsTotal := s.RequestsTotal + value }
  | "request_success" => { s with RequestsSuccess := s.RequestsSuccess + value }
  | "request_failed" => { s with RequestsFailed := s.RequestsFailed + value }
  | "items_scraped" => { s with ItemsScraped := s.ItemsScraped + value }
  | _ => s

def keyRequestTotal : String := "request_total"
def keyRequestSuccess : String := "request_success"
def keyRequestFailed : String := "request_failed"
def keyItemsScraped : String := "items_scraped"

/-! ## Engine processing (src/engine/engine.go)

A parse callback yields a mixed list of new requests and data items
(a slice of dynamically typed values in Go, tagged here); items carry an arbitrary payload
type.  The engine environment packages the registered middlewares, the
downloader, the spider parse callback and the pipelines.  The engine
state threaded through processing is the statistics struct paired with a
ghost counter of requests dropped by request middleware — the ghost
counter has no Go counterpart, it only observes the drops. -/

inductive ParseResult (Item : Type) where
  | req (r : Request)
  | item (v : Item)

structure EngineEnv (Item : Type) where
  middlewares : List MiddlewareModel
  download : Request → Except String Response
  parse : Response → List (ParseResult Item)
  pipelines : List (Item → Option Item)

/-- The request-middleware loop of `processRequest` and friends:
`req = mw.ProcessRequest(req)`, stopping with `nil` when one drops. -/
def applyRequestMW : List MiddlewareModel → Request → Option Request
  | [], req => some req
  | mw :: rest, req =>
      match mw.ProcessRequest req with
      | none => none
      | some req2 => applyRequestMW rest req2

/-- The response-middleware loop: `resp = mw.ProcessResponse(req, resp)`,
stopping with `nil` when one drops. -/
def applyResponseMW : List MiddlewareModel → Request → Response → Option Response
  | [], _, resp => some resp
  | mw :: rest, req, resp =>
      match mw.ProcessResponse req resp with
      | none => none
      | some resp2 => applyResponseMW rest req resp2

/-- The loop at the top of `processResultsConcurrently` separating
`*request.Request` values from data items, preserving order. -/
def splitResults {Item : Type} : List (ParseResult Item) → List Request × List Item
  | [] => ([], [])
  | .req r :: rest =>
      let p := splitResults rest
      (r :: p.1, p.2)
  | .item v :: rest =>
      let p := splitResults rest
      (p.1, v :: p.2)

/-- The dispatch decision of `processResultsConcurrently`:
`batchDispatch` is handed to `processBatchRequestsDirectly` in a detached
goroutine, `pooled` is what goes into the shared `resultPool` buffer
(requests first, then items, matching the two Go loops). -/
structure RouteDecision (Item : Type) where
  batchDispatch : List Request
  pooled : List (ParseResult Item)

def routeResults {Item : Type} (results : List (ParseResult Item)) :
    RouteDecision Item :=
  let p := splitResults results
  if 1 < p.1.length then
    { batchDispatch := p.1, pooled := p.2.map ParseResult.item }
  else
    { batchDispatch := [],
      pooled := p.1.map ParseResult.req ++ p.2.map ParseResult.item }

/-- Go `processItem` and `processAnyItem`: count the item, then push it through
the pipelines (a `nil` pipeline result stops the chain; the pipelines
touch no engine statistics, so only the count is observable here). -/
def processItemF {Item : Type} (_env : EngineEnv Item) (sd : Stats × Nat)
    (_v : Item) : Stats × Nat :=
  (updateStats sd.1 keyItemsScraped 1, sd.2)

/-- Go `processRequest`, parameterised by the continuation `k` that handles
the parse results (`processResultsConcurrently` at one less fuel).
Counts the request, runs the request middlewares (a drop bumps the ghost
counter and ends the cycle), downloads (a failure counts as failed and
ends the cycle), counts the success, runs the response middlewares, then
hands the parse output to `k`. -/
def processRequestWith {Item : Type} (env : EngineEnv Item)
    (k : Stats × Nat → List (ParseResult Item) → Stats × Nat)
    (sd : Stats × Nat) (req : Request) : Stats × Nat :=
  let sd1 : Stats × Nat := (updateStats sd.1 keyRequestTotal 1, sd.2)
  match applyRequestMW env.middlewares req with
  | none => (sd1.1, sd1.2 + 1)
  | some req2 =>
      match env.download req2 with
      | .error _ => (updateStats sd1.1 keyRequestFailed 1, sd1.2)
      | .ok resp =>
          let sd2 : Stats × Nat := (updateStats sd1.1 keyRequestSuccess 1, sd1.2)
          match applyResponseMW env.middlewares req2 resp with
          | none => sd2
          | some resp2 => k sd2 (env.parse resp2)

/-- The middleware-filter loop at the top of
`processBatchRequestsDirectly`: every request is counted in
`request_total`, the surviving ones are collected in order. -/
def batchFilterMW {Item : Type} (env : EngineEnv Item) :
    Stats × Nat → List Request → (Stats × Nat) × List Request
  | sd, [] => (sd, [])
  | sd, req :: rest =>
      let sd1 : Stats × Nat := (updateStats sd.1 keyRequestTotal 1, sd.2)
      match applyRequestMW env.middlewares req with
      | none => batchFilterMW env (sd1.1, sd1.2 + 1) rest
      | some req2 =>
          let p := batchFilterMW env sd1 rest
          (p.1, req2 :: p.2)

/-- The result-drain loop of `processBatchRequestsDirectly`: classify each
`AsyncResult` from the batch channel, run response middlewares, parse and
hand the results to the continuation `k`.  A `nil` response without error
counts as failed (that Go branch is unreachable under this downloader
model, where `ok` always carries a response). -/
def batchDrain {Item : Type} (env : EngineEnv Item)
    (k : Stats × Nat → List (ParseResult Item) → Stats × Nat) :
    Stats × Nat → List AsyncResult → Stats × Nat
  | sd, [] => sd
  | sd, ar :: rest =>
      match ar.Error with
      | some _ => batchDrain env k (updateStats sd.1 keyRequestFailed 1, sd.2) rest
      | none =>
          match ar.Response with
          | none => batchDrain env k (updateStats sd.1 keyRequestFailed 1, sd.2) rest
          | some resp =>
              let sd1 : Stats × Nat := (updateStats sd.1 keyRequestSuccess 1, sd.2)
              match applyResponseMW env.middlewares ar.Request resp with
              | none => batchDrain env k sd1 rest
              | some resp2 => batchDrain env k (k sd1 (env.parse resp2)) rest

/-- Go `processBatchRequestsDirectly`: middleware filter, batched download,
then drain the result channel. -/
def processBatchWith {Item : Type} (env : EngineEnv Item)
    (k : Stats × Nat → List (ParseResult Item) → Stats × Nat)
    (sd : Stats × Nat) (reqs : List Request) : Stats × Nat :=
  let p := batchFilterMW env sd reqs
  batchDrain env k p.1 (DownloadBatch env.download p.2).sent

def foldRequests {Item : Type} (env : EngineEnv Item)
    (k : Stats × Nat → List (ParseResult Item) → Stats × Nat) :
    Stats × Nat → List Request → Stats × Nat
  | sd, [] => sd
  | sd, req :: rest => foldRequests env k (processRequestWith env k sd req) rest

def foldItems {Item : Type} (env : EngineEnv Item) :
    Stats × Nat → List Item → Stats × Nat
  | sd, [] => sd
  | sd, v :: rest => foldItems env (processItemF env sd v) rest

/-- Go `processResultsConcurrently`, sequentialised: split the results; more
than one request goes through `processBatchRequestsDirectly` (whose parse
output is routed recursively), otherwise each request travels through the
`resultPool`, is enqueued by `processResult` and eventually handled by a
worker running `processRequest`; data items are counted through the
pipelines.  `fuel` bounds the recursion depth through parse callbacks; a
completed run is the limit of large fuel, and the statements below hold
for every fuel. -/
def processResultsF {Item : Type} (env : EngineEnv Item) :
    Nat → Stats × Nat → List (ParseResult Item) → Stats × Nat
  | 0, sd, _ => sd
  | fuel + 1, sd, results =>
      let p := splitResults results
      let sd1 :=
        if 1 < p.1.length then
          processBatchWith env (processResultsF env fuel) sd p.1
        else
          foldRequests env (processResultsF env fuel) sd p.1
      foldItems env sd1 p.2

def processRequestF {Item : Type} (env : EngineEnv Item) (fuel : Nat)
    (sd : Stats × Nat) (req : Request) : Stats × Nat :=
  processRequestWith env (processResultsF env fuel) sd req

/-- A completed `Run`: the seed requests from `StartRequests` are
enqueued, dequeued by workers and processed to quiescence; the final
statistics are reported.  (All statistics increments commute, so the
sequential fold computes the reported counters of the concurrent run.) -/
def runF {Item : Type} (env : EngineEnv Item) (fuel : Nat)
    (seeds : List Request) : Stats × Nat :=
  foldRequests env (processResultsF env fuel) ({}, 0) seeds

/-! ## Specification-side definitions

The predicates and traces below state the verified properties; they are
not translations of Go code. -/

/-- The binary max-heap (on `Priority`) shape over a slot range `n`. -/
def IsHeapBelow (pq : List PriorityItem) (n : Nat) : Prop :=
  ∀ k, 0 < k → k < n → priAt pq k ≤ priAt pq (parentIdx k)

def IsHeap (pq : List PriorityItem) : Prop :=
  IsHeapBelow pq pq.length

/-- Loop invariant of `container/heap.up` at slot `j`: every edge except
the one into `j` is ordered, and the children of `j` already fit under
the parent of `j`. -/
def UpInv (pq : List PriorityItem) (j : Nat) : Prop :=
  (∀ k, 0 < k → k < pq.length → k ≠ j →
      priAt pq k ≤ priAt pq (parentIdx k)) ∧
  (∀ k, 0 < k → k < pq.length → parentIdx k = j → k ≠ j →
      priAt pq k ≤ priAt pq (parentIdx j))

/-- Loop invariant of `container/heap.down` at slot `i` over range `n`:
every edge not departing from `i` is ordered, and (when `i` is not the
root) the children of `i` fit under the parent of `i`. -/
def DownInv (pq : List PriorityItem) (i n : Nat) : Prop :=
  (∀ k, 0 < k → k < n → parentIdx k ≠ i →
      priAt pq k ≤ priAt pq (parentIdx k)) ∧
  (0 < i → ∀ k, 0 < k → k < n → parentIdx k = i →
      priAt pq k ≤ priAt pq (parentIdx i))

/-- Every stored item records the priority of its own request (the
`Enqueue` wrapper sets `Priority: req.Priority`). -/
def ItemsOK (pq : List PriorityItem) : Prop :=
  ∀ k, k < pq.length →
    (itemAt pq k).Priority = (itemAt pq k).Request.Priority

/-- Priority-scheduler states reachable by single-threaded use of the
public interface. -/
inductive PReach : PriorityScheduler → Prop where
  | init : PReach NewPriorityScheduler
  | enq (s : PriorityScheduler) (req : Request) :
      PReach s → PReach (s.Enqueue req)
  | deq (s : PriorityScheduler) : PReach s → PReach (s.Dequeue).2

/-- A single-threaded interface call on a scheduler. -/
inductive SchedOp where
  | enq (req : Request)
  | deq
deriving DecidableEq, Inhabited

/-- Count enqueues `N` and counted dequeues `M` over an op sequence; a
dequeue attempted while the queue is empty (current size `n - m` is zero)
is not counted. -/
def opsCounting : Nat × Nat → List SchedOp → Nat × Nat
  | nm, [] => nm
  | (n, m), .enq _ :: ops => opsCounting (n + 1, m) ops
  | (n, m), .deq :: ops => opsCounting (n, if m < n then m + 1 else m) ops

def runFIFO : FIFOScheduler → List SchedOp → FIFOScheduler
  | s, [] => s
  | s, .enq req :: ops => runFIFO (s.Enqueue req) ops
  | s, .deq :: ops => runFIFO (s.Dequeue).2 ops

def runLIFO : LIFOScheduler → List SchedOp → LIFOScheduler
  | s, [] => s
  | s, .enq req :: ops => runLIFO (s.Enqueue req) ops
  | s, .deq :: ops => runLIFO (s.Dequeue).2 ops

def runPriority : PriorityScheduler → List SchedOp → PriorityScheduler
  | s, [] => s
  | s, .enq req :: ops => runPriority (s.Enqueue req) ops
  | s, .deq :: ops => runPriority (s.Dequeue).2 ops

/-- The statistics balance of an engine state: total minus successes,
failures and middleware-dropped requests. -/
def gap (sd : Stats × Nat) : Int :=
  sd.1.RequestsTotal - sd.1.RequestsSuccess - sd.1.RequestsFailed -
    (sd.2 : Int)

/-- Tag projections used to state the router partition. -/
def toReqOpt {Item : Type} : ParseResult Item → Option Request
  | .req r => some r
  | .item _ => none

def toItemOpt {Item : Type} : ParseResult Item → Option Item
  | .req _ => none
  | .item v => some v

/-! ## Concrete values for examples, witnesses and counterexamples -/

def methodGET : String := "GET"
def exampleURL : String := "http://example.com"

def reqPri1 : Request := (NewRequest methodGET exampleURL).SetPriority 1
def reqPri5 : Request := (NewRequest methodGET exampleURL).SetPriority 5
def reqPri3 : Request := (NewRequest methodGET exampleURL).SetPriority 3

/-- Three enqueues with priorities 1, 5, 3. -/
def pqDemo3 : PriorityScheduler :=
  ((NewPriorityScheduler.Enqueue reqPri1).Enqueue reqPri5).Enqueue reqPri3

def pqDemoA : PriorityScheduler := pqDemo3.Dequeue.2
def pqDemoB : PriorityScheduler := pqDemoA.Dequeue.2

/-- Capacity-1 channel scheduler after a buffered enqueue. -/
def chanFull : ChannelScheduler := (NewChannelScheduler 1).Enqueue reqPri1

/-- The same scheduler after a second enqueue that found the buffer full (detached send
still pending) and a dequeue that drained the buffer. -/
def chanDemo : ChannelScheduler := (chanFull.Enqueue reqPri5).Dequeue.2

def failMsg : String := "connection refused"

/-- A request middleware that drops every request (for example a dedup or
robots filter), plus an identity response hook. -/
def dropAllMW : MiddlewareModel :=
  { ProcessRequest := fun _ => none
    ProcessResponse := fun _ resp => some resp }

def cexSeed : Request := NewRequest methodGET exampleURL

/-- Engine with the dropping middleware installed. -/
def cexEnv : EngineEnv Unit :=
  { middlewares := [dropAllMW]
    download := fun _ => Except.error failMsg
    parse := fun _ => []
    pipelines := [] }

/-- Engine with no middleware whose every download fails. -/
def failEnv : EngineEnv Unit :=
  { middlewares := []
    download := fun _ => Except.error failMsg
    parse := fun _ => []
    pipelines := [] }

def contA : Stats × Nat → List (ParseResult Unit) → Stats × Nat :=
  fun sd _ => sd

def contB : Stats × Nat → List (ParseResult Unit) → Stats × Nat :=
  fun _ _ => ({}, 5)

/-- A parse output with two requests and one item. -/
def routeDemoTwo : List (ParseResult Unit) :=
  [.req reqPri1, .item (), .req reqPri5]

/-- A parse output with a single request and one item. -/
def routeDemoOne : List (ParseResult Unit) :=
  [.req reqPri1, .item ()]

/-! # Theorems -/

/-! ## Heap plumbing -/

theorem getD_append_self {α : Type} : ∀ (l : List α) (x d : α),
    (l ++ [x]).getD l.length d = x
  | [], _, _ => rfl
  | _ :: xs, x, d => getD_append_self xs x d

theorem parentIdx_lt {j : Nat} (h : 0 < j) : parentIdx j < j := by
  unfold parentIdx; omega

theorem parentIdx_zero : parentIdx 0 = 0 := rfl

theorem length_pqSwap (pq : List PriorityItem) (i j : Nat) :
    (pqSwap pq i j).length = pq.length := by
  simp [pqSwap]

theorem itemAt_pqSwap_ne (pq : List PriorityItem) {i j k : Nat}
    (hki : k ≠ i) (hkj : k ≠ j) : itemAt (pqSwap pq i j) k = itemAt pq k := by
  simp only [pqSwap, itemAt]
  rw [getD_set_ne _ _ _ _ _ (fun h => hkj h.symm),
    getD_set_ne _ _ _ _ _ (fun h => hki h.symm)]

theorem itemAt_pqSwap_j (pq : List PriorityItem) {i j : Nat}
    (hi : i < pq.length) (hj : j < pq.length) :
    itemAt (pqSwap pq i j) j = { itemAt pq i with Index := Int.ofNat j } := by
  simp only [pqSwap, itemAt]
  exact getD_set_eq _ _ _ _ (by simpa using hj)

theorem itemAt_pqSwap_i (pq : List PriorityItem) {i j : Nat}
    (hi : i < pq.length) (hj : j < pq.length) (hij : i ≠ j) :
    itemAt (pqSwap pq i j) i = { itemAt pq j with Index := Int.ofNat i } := by
  simp only [pqSwap, itemAt]
  rw [getD_set_ne _ _ _ _ _ (fun h => hij h.symm)]
  exact getD_set_eq _ _ _ _ hi

theorem priAt_pqSwap (pq : List PriorityItem) {i j : Nat}
    (hi : i < pq.length) (hj : j < pq.length) (k : Nat) :
    priAt (pqSwap pq i j) k =
      if k = j then priAt pq i
      else if k = i then priAt pq j
      else priAt pq k := by
  by_cases hkj : k = j
  · subst hkj
    simp [priAt, itemAt_pqSwap_j pq hi hj]
  · by_cases hki : k = i
    · subst hki
      simp [priAt, itemAt_pqSwap_i pq hi hj hkj, hkj]
    · simp [priAt, itemAt_pqSwap_ne pq hki hkj, hkj, hki]

theorem length_heapUpAux : ∀ (fuel : Nat) (pq : List PriorityItem) (j : Nat),
    (heapUpAux fuel pq j).length = pq.length
  | fuel, _, 0 => by cases fuel <;> rfl
  | 0, _, _ + 1 => rfl
  | fuel + 1, pq, j + 1 => by
      unfold heapUpAux
      split
      · rw [length_heapUpAux fuel _ _, length_pqSwap]
      · rfl

theorem length_heapDownAux : ∀ (fuel : Nat) (pq : List PriorityItem) (i n : Nat),
    (heapDownAux fuel pq i n).length = pq.length
  | 0, _, _, _ => rfl
  | fuel + 1, pq, i, n => by
      unfold heapDownAux
      split
      · rfl
      · split
        · rw [length_heapDownAux fuel _ _ _, length_pqSwap]
        · rfl

theorem length_pqPush (pq : List PriorityItem) (item : PriorityItem) :
    (pqPush pq item).length = pq.length + 1 := by
  simp [pqPush]

theorem length_heapPush (pq : List PriorityItem) (item : PriorityItem) :
    (heapPush pq item).length = pq.length + 1 := by
  unfold heapPush heapUp
  rw [length_heapUpAux, length_pqPush]

theorem length_heapPop (pq : List PriorityItem) :
    (heapPop pq).2.length = pq.length - 1 := by
  unfold heapPop heapDown
  simp only [List.length_take, length_heapDownAux, length_pqSwap]
  omega

theorem downChild_lt (pq : List PriorityItem) {i n : Nat} (h : 2 * i + 1 < n) :
    downChild pq i n < n := by
  unfold downChild
  split
  · next hcond => exact hcond.1
  · exact h

theorem downChild_gt (pq : List PriorityItem) (i n : Nat) :
    i < downChild pq i n := by
  unfold downChild
  split <;> omega

theorem parentIdx_downChild (pq : List PriorityItem) (i n : Nat) :
    parentIdx (downChild pq i n) = i := by
  unfold downChild parentIdx
  split <;> omega

/-- The chosen child dominates every in-range child of `i`. -/
theorem downChild_max (pq : List PriorityItem) {i n k : Nat}
    (hk : k < n) (hpk : parentIdx k = i) (hk0 : 0 < k) :
    priAt pq k ≤ priAt pq (downChild pq i n) := by
  have hk12 : k = 2 * i + 1 ∨ k = 2 * i + 2 := by
    unfold parentIdx at hpk; omega
  unfold downChild
  split
  · next hcond =>
    have hlt : priAt pq (2 * i + 1) < priAt pq (2 * i + 2) := by
      have h2 := hcond.2
      simp only [pqLess, decide_eq_true_eq] at h2
      exact h2
    rcases hk12 with h | h <;> subst h
    · exact le_of_lt hlt
    · exact le_refl _
  · next hcond =>
    rcases hk12 with h | h <;> subst h
    · exact le_refl _
    · have hnot : ¬ priAt pq (2 * i + 1) < priAt pq (2 * i + 2) := by
        intro hl
        exact hcond ⟨hk, by simp only [pqLess, decide_eq_true_eq]; exact hl⟩
      omega

theorem itemAt_heapDownAux_ge : ∀ (fuel : Nat) (pq : List PriorityItem)
    (i n k : Nat), n ≤ k → itemAt (heapDownAux fuel pq i n) k = itemAt pq k
  | 0, _, _, _, _, _ => rfl
  | fuel + 1, pq, i, n, k, hk => by
      unfold heapDownAux
      split
      · rfl
      · next h1 =>
        split
        · rw [itemAt_heapDownAux_ge fuel _ _ _ _ hk, itemAt_pqSwap_ne]
          · omega
          · have := @downChild_lt pq i n (by omega)
            omega
        · rfl

/-! ## Sift-up correctness -/

theorem parentIdx_le (j : Nat) : parentIdx j ≤ j := by
  unfold parentIdx; omega

/-- One `up` swap rebuilds the invariant one level closer to the root. -/
theorem upInv_swap (pq : List PriorityItem) {j : Nat} (hj0 : 0 < j)
    (hjlen : j < pq.length)
    (hless : priAt pq (parentIdx j) < priAt pq j) (hinv : UpInv pq j) :
    UpInv (pqSwap pq (parentIdx j) j) (parentIdx j) := by
  have hij : parentIdx j < j := parentIdx_lt hj0
  have hilen : parentIdx j < pq.length := lt_trans hij hjlen
  have hQ := priAt_pqSwap pq hilen hjlen
  obtain ⟨h1, h2⟩ := hinv
  constructor
  · intro k hk0 hklen hki
    rw [length_pqSwap] at hklen
    rw [hQ k, hQ (parentIdx k)]
    by_cases hkj : k = j
    · have hpk : parentIdx k = parentIdx j := by rw [hkj]
      rw [if_pos hkj, if_neg (by omega : ¬ parentIdx k = j), if_pos hpk]
      exact le_of_lt hless
    · rw [if_neg hkj, if_neg hki]
      by_cases hpkj : parentIdx k = j
      · rw [if_pos hpkj]
        exact h2 k hk0 hklen hpkj hkj
      · rw [if_neg hpkj]
        by_cases hpki : parentIdx k = parentIdx j
        · rw [if_pos hpki]
          have hh := h1 k hk0 hklen hkj
          rw [hpki] at hh
          exact le_trans hh (le_of_lt hless)
        · rw [if_neg hpki]
          exact h1 k hk0 hklen hkj
  · intro k hk0 hklen hpk hki
    rw [length_pqSwap] at hklen
    rw [hQ k, hQ (parentIdx (parentIdx j))]
    by_cases hi0 : parentIdx j = 0
    · have ha : ¬ parentIdx (parentIdx j) = j := by
        have := parentIdx_le (parentIdx j); omega
      have hb : parentIdx (parentIdx j) = parentIdx j := by rw [hi0]; rfl
      rw [if_neg ha, if_pos hb]
      by_cases hkj : k = j
      · rw [if_pos hkj]
        exact le_of_lt hless
      · rw [if_neg hkj, if_neg hki]
        have hh := h1 k hk0 hklen hkj
        rw [hpk] at hh
        exact le_trans hh (le_of_lt hless)
    · have hpi : parentIdx (parentIdx j) < parentIdx j := parentIdx_lt (by omega)
      rw [if_neg (by omega : ¬ parentIdx (parentIdx j) = j),
        if_neg (by omega : ¬ parentIdx (parentIdx j) = parentIdx j)]
      have hstep := h1 (parentIdx j) (by omega) hilen (by omega)
      by_cases hkj : k = j
      · rw [if_pos hkj]
        exact hstep
      · rw [if_neg hkj, if_neg hki]
        have hh := h1 k hk0 hklen hkj
        rw [hpk] at hh
        exact le_trans hh hstep

/-- Under the loop invariant, the `up` loop produces a heap. -/
theorem heapUpAux_heap : ∀ (fuel : Nat) (pq : List PriorityItem) (j : Nat),
    j ≤ fuel → j < pq.length → UpInv pq j → IsHeap (heapUpAux fuel pq j)
  | fuel, pq, 0, _, _, hinv => by
      have he : heapUpAux fuel pq 0 = pq := by cases fuel <;> rfl
      rw [he]
      intro k hk0 hklen
      exact hinv.1 k hk0 hklen (by omega)
  | 0, _, j + 1, hle, _, _ => absurd hle (by omega)
  | fuel + 1, pq, j + 1, hle, hlen, hinv => by
      unfold heapUpAux
      split
      · next hcond =>
        have hless : priAt pq (parentIdx (j + 1)) < priAt pq (j + 1) := by
          simpa [pqLess, decide_eq_true_eq] using hcond
        have hplt : parentIdx (j + 1) < j + 1 := parentIdx_lt (by omega)
        exact heapUpAux_heap fuel _ _ (by omega)
          (by rw [length_pqSwap]; omega)
          (upInv_swap pq (by omega) hlen hless hinv)
      · next hcond =>
        have hnless : ¬ priAt pq (parentIdx (j + 1)) < priAt pq (j + 1) := by
          simpa [pqLess, decide_eq_true_eq] using hcond
        intro k hk0 hklen
        by_cases hkj : k = j + 1
        · rw [hkj]
          omega
        · exact hinv.1 k hk0 hklen hkj

theorem priAt_pqPush_lt (pq : List PriorityItem) (item : PriorityItem)
    {k : Nat} (hk : k < pq.length) : priAt (pqPush pq item) k = priAt pq k := by
  simp only [priAt, itemAt, pqPush]
  rw [getD_append_lt _ _ _ _ hk]

/-- Appending a fresh slot establishes the `up` invariant at that slot. -/
theorem upInv_pqPush (pq : List PriorityItem) (item : PriorityItem)
    (hheap : IsHeap pq) : UpInv (pqPush pq item) pq.length := by
  constructor
  · intro k hk0 hklen hkne
    rw [length_pqPush] at hklen
    have hk : k < pq.length := by omega
    have hp : parentIdx k < pq.length := by
      have := parentIdx_lt hk0; omega
    rw [priAt_pqPush_lt pq item hk, priAt_pqPush_lt pq item hp]
    exact hheap k hk0 hk
  · intro k hk0 hklen hpk _
    rw [length_pqPush] at hklen
    have := parentIdx_lt hk0
    omega

theorem isHeap_heapPush (pq : List PriorityItem) (item : PriorityItem)
    (hheap : IsHeap pq) : IsHeap (heapPush pq item) := by
  unfold heapPush heapUp
  exact heapUpAux_heap pq.length (pqPush pq item) pq.length (le_refl _)
    (by rw [length_pqPush]; omega) (upInv_pqPush pq item hheap)

/-- In a max-heap the root priority dominates every slot. -/
theorem priAt_le_root (pq : List PriorityItem) (hheap : IsHeap pq) :
    ∀ k, k < pq.length → priAt pq k ≤ priAt pq 0 := by
  intro k
  induction k using Nat.strong_induction_on with
  | _ k ih =>
    intro hk
    by_cases hk0 : k = 0
    · rw [hk0]
    · have h1 : 0 < k := Nat.pos_of_ne_zero hk0
      have hp := parentIdx_lt h1
      exact le_trans (hheap k h1 hk) (ih (parentIdx k) hp (by omega))

/-! ## Sift-down correctness -/

/-- One `down` swap rebuilds the invariant one level further down. -/
theorem downInv_swap (pq : List PriorityItem) {i n : Nat}
    (hin : 2 * i + 1 < n) (hnlen : n ≤ pq.length)
    (hless : priAt pq i < priAt pq (downChild pq i n))
    (hinv : DownInv pq i n) :
    DownInv (pqSwap pq i (downChild pq i n)) (downChild pq i n) n := by
  have hcl := downChild_lt pq hin
  have hcg := downChild_gt pq i n
  have hcp := parentIdx_downChild pq i n
  have hQ := priAt_pqSwap pq (show i < pq.length by omega)
    (show downChild pq i n < pq.length by omega)
  obtain ⟨h1, h2⟩ := hinv
  constructor
  · intro k hk0 hkn hpkc
    rw [hQ k, hQ (parentIdx k)]
    by_cases hkc : k = downChild pq i n
    · have hpk : parentIdx k = i := by rw [hkc]; exact hcp
      rw [if_pos hkc, if_neg hpkc, if_pos hpk]
      exact le_of_lt hless
    · rw [if_neg hkc]
      by_cases hki : k = i
      · have hi0 : 0 < i := by omega
        have hplt := parentIdx_lt hi0
        have hp1 : ¬ parentIdx k = downChild pq i n := by rw [hki]; omega
        have hp2 : ¬ parentIdx k = i := by rw [hki]; omega
        rw [if_pos hki, if_neg hp1, if_neg hp2, hki]
        exact h2 hi0 (downChild pq i n) (by omega) hcl hcp
      · rw [if_neg hki]
        by_cases hpk : parentIdx k = i
        · rw [if_neg (by omega : ¬ parentIdx k = downChild pq i n), if_pos hpk]
          exact downChild_max pq hkn hpk hk0
        · rw [if_neg hpkc, if_neg hpk]
          exact h1 k hk0 hkn hpk
  · intro _ k hk0 hkn hpk
    rw [hQ k, hQ (parentIdx (downChild pq i n))]
    have hkgt := parentIdx_lt hk0
    have hkc : ¬ k = downChild pq i n := by omega
    have hkii : ¬ k = i := by omega
    rw [if_neg hkc, if_neg hkii, hcp,
      if_neg (by omega : ¬ i = downChild pq i n), if_pos rfl]
    have hh := h1 k hk0 hkn (by omega)
    rw [hpk] at hh
    exact hh

/-- Under the loop invariant, the `down` loop restores the heap shape on
the range below `n`. -/
theorem heapDownAux_heapBelow : ∀ (fuel : Nat) (pq : List PriorityItem)
    (i n : Nat), n - i ≤ fuel → n ≤ pq.length → DownInv pq i n →
    IsHeapBelow (heapDownAux fuel pq i n) n
  | 0, pq, i, n, hfuel, _, hinv => by
      intro k hk0 hkn
      have := parentIdx_lt hk0
      exact hinv.1 k hk0 hkn (by unfold parentIdx; omega)
  | fuel + 1, pq, i, n, hfuel, hnlen, hinv => by
      unfold heapDownAux
      split
      · next hguard =>
        intro k hk0 hkn
        exact hinv.1 k hk0 hkn (by unfold parentIdx; omega)
      · next hguard =>
        split
        · next hl =>
          have hless : priAt pq i < priAt pq (downChild pq i n) := by
            simpa [pqLess, decide_eq_true_eq] using hl
          have hcg := downChild_gt pq i n
          exact heapDownAux_heapBelow fuel _ _ _ (by omega)
            (by rw [length_pqSwap]; exact hnlen)
            (downInv_swap pq (by omega) hnlen hless hinv)
        · next hl =>
          have hnless : ¬ priAt pq i < priAt pq (downChild pq i n) := by
            simpa [pqLess, decide_eq_true_eq] using hl
          intro k hk0 hkn
          by_cases hpk : parentIdx k = i
          · have hmax := downChild_max pq hkn hpk hk0
            rw [hpk]
            omega
          · exact hinv.1 k hk0 hkn hpk

/-- Swapping the root with the last slot leaves every edge below the
shortened range ordered except those departing from the root. -/
theorem downInv_init (pq : List PriorityItem) (hheap : IsHeap pq) :
    DownInv (pqSwap pq 0 (pq.length - 1)) 0 (pq.length - 1) := by
  constructor
  · intro k hk0 hkn hpk
    have hklen : k < pq.length := by omega
    have hpl := parentIdx_lt hk0
    rw [priAt_pqSwap pq (by omega) (by omega) k,
      priAt_pqSwap pq (by omega) (by omega) (parentIdx k)]
    rw [if_neg (by omega : ¬ k = pq.length - 1), if_neg (by omega : ¬ k = 0),
      if_neg (by omega : ¬ parentIdx k = pq.length - 1), if_neg hpk]
    exact hheap k hk0 hklen
  · intro h0
    exact absurd h0 (lt_irrefl 0)

theorem priAt_take (pq : List PriorityItem) {n k : Nat} (h : k < n) :
    priAt (pq.take n) k = priAt pq k := by
  unfold priAt itemAt
  rw [getD_take_lt _ _ _ _ h]

theorem isHeap_heapPop (pq : List PriorityItem) (hheap : IsHeap pq) :
    IsHeap (heapPop pq).2 := by
  intro k hk0 hklen
  rw [length_heapPop] at hklen
  have hbel := heapDownAux_heapBelow (pq.length - 1 - 0)
    (pqSwap pq 0 (pq.length - 1)) 0 (pq.length - 1) (le_refl _)
    (by rw [length_pqSwap]; omega) (downInv_init pq hheap)
  have hpl := parentIdx_lt hk0
  show priAt (heapPop pq).2 k ≤ priAt (heapPop pq).2 (parentIdx k)
  unfold heapPop heapDown
  simp only []
  rw [priAt_take _ hklen, priAt_take _ (by omega : parentIdx k < pq.length - 1)]
  exact hbel k hk0 hklen

/-! ## Items carry their own request priority through every operation -/

theorem itemsOK_pqSwap (pq : List PriorityItem) {i j : Nat}
    (hi : i < pq.length) (hj : j < pq.length) (hok : ItemsOK pq) :
    ItemsOK (pqSwap pq i j) := by
  intro k hk
  rw [length_pqSwap] at hk
  by_cases hkj : k = j
  · rw [hkj, itemAt_pqSwap_j pq hi hj]
    exact hok i hi
  · by_cases hki : k = i
    · rw [hki, itemAt_pqSwap_i pq hi hj (by rw [← hki]; exact hkj)]
      exact hok j hj
    · rw [itemAt_pqSwap_ne pq hki hkj]
      exact hok k hk

theorem itemsOK_heapUpAux : ∀ (fuel : Nat) (pq : List PriorityItem) (j : Nat),
    j < pq.length → ItemsOK pq → ItemsOK (heapUpAux fuel pq j)
  | fuel, pq, 0, _, hok => by
      have he : heapUpAux fuel pq 0 = pq := by cases fuel <;> rfl
      rwa [he]
  | 0, _, _ + 1, _, hok => hok
  | fuel + 1, pq, j + 1, hj, hok => by
      unfold heapUpAux
      split
      · have hplt : parentIdx (j + 1) < j + 1 := parentIdx_lt (by omega)
        exact itemsOK_heapUpAux fuel _ _
          (by rw [length_pqSwap]; omega)
          (itemsOK_pqSwap pq (by omega) hj hok)
      · exact hok

theorem itemsOK_heapDownAux : ∀ (fuel : Nat) (pq : List PriorityItem)
    (i n : Nat), n ≤ pq.length → ItemsOK pq →
    ItemsOK (heapDownAux fuel pq i n)
  | 0, _, _, _, _, hok => hok
  | fuel + 1, pq, i, n, hn, hok => by
      unfold heapDownAux
      split
      · exact hok
      · next hguard =>
        split
        · have hcl := @downChild_lt pq i n (by omega)
          exact itemsOK_heapDownAux fuel _ _ _
            (by rw [length_pqSwap]; exact hn)
            (itemsOK_pqSwap pq (by omega) (by omega) hok)
        · exact hok

theorem itemsOK_pqPush (pq : List PriorityItem) (item : PriorityItem)
    (hitem : item.Priority = item.Request.Priority) (hok : ItemsOK pq) :
    ItemsOK (pqPush pq item) := by
  intro k hk
  rw [length_pqPush] at hk
  by_cases hkl : k < pq.length
  · simp only [itemAt, pqPush]
    rw [getD_append_lt _ _ _ _ hkl]
    exact hok k hkl
  · have hke : k = pq.length := by omega
    simp only [hke, itemAt, pqPush]
    rw [getD_append_self]
    simpa using hitem

theorem itemsOK_take (pq : List PriorityItem) (n : Nat) (hok : ItemsOK pq) :
    ItemsOK (pq.take n) := by
  intro k hk
  rw [List.length_take] at hk
  simp only [itemAt]
  rw [getD_take_lt _ _ _ _ (by omega : k < n)]
  exact hok k (by omega)

theorem itemsOK_heapPush (pq : List PriorityItem) (item : PriorityItem)
    (hitem : item.Priority = item.Request.Priority) (hok : ItemsOK pq) :
    ItemsOK (heapPush pq item) := by
  unfold heapPush heapUp
  exact itemsOK_heapUpAux _ _ _ (by rw [length_pqPush]; omega)
    (itemsOK_pqPush pq item hitem hok)

theorem itemsOK_heapPop (pq : List PriorityItem) (hok : ItemsOK pq) :
    ItemsOK (heapPop pq).2 := by
  by_cases h0 : pq.length = 0
  · intro k hk
    rw [length_heapPop, h0] at hk
    omega
  · unfold heapPop heapDown
    simp only []
    exact itemsOK_take _ _ (itemsOK_heapDownAux _ _ _ _
      (by rw [length_pqSwap]; omega)
      (itemsOK_pqSwap pq (by omega) (by omega) hok))

/-! ## Reachable priority-scheduler states -/

theorem preach_inv {s : PriorityScheduler} (h : PReach s) :
    IsHeap s.queue ∧ ItemsOK s.queue := by
  induction h with
  | init =>
      constructor
      · intro k hk0 hk
        simp [NewPriorityScheduler] at hk
      · intro k hk
        simp [NewPriorityScheduler] at hk
  | enq s req _ ih =>
      constructor
      · exact isHeap_heapPush _ _ ih.1
      · exact itemsOK_heapPush _ _ rfl ih.2
  | deq s _ ih =>
      unfold PriorityScheduler.Dequeue
      split
      · exact ih
      · exact ⟨isHeap_heapPop _ ih.1, itemsOK_heapPop _ ih.2⟩

/-- The request popped by `Dequeue` is the request stored at the root. -/
theorem heapPop_root (pq : List PriorityItem) (h0 : 0 < pq.length) :
    (heapPop pq).1.Request = (itemAt pq 0).Request := by
  unfold heapPop heapDown
  simp only []
  rw [itemAt_heapDownAux_ge _ _ _ _ _ (le_refl _),
    itemAt_pqSwap_j pq h0 (by omega)]

/-- Any dequeued request carries a maximal priority among the tasks that
were enqueued at that point. -/
theorem dequeue_max (s : PriorityScheduler) (hheap : IsHeap s.queue)
    (hok : ItemsOK s.queue) (req : Request) (s2 : PriorityScheduler)
    (h : s.Dequeue = (some req, s2)) :
    ∀ k, k < s.queue.length → (itemAt s.queue k).Request.Priority ≤ req.Priority := by
  intro k hk
  unfold PriorityScheduler.Dequeue at h
  split at h
  · exact absurd (congrArg Prod.fst h) (by simp)
  · next hne =>
    have h0 : 0 < s.queue.length := by
      simp only [beq_iff_eq] at hne
      omega
    have hreq : req = (heapPop s.queue).1.Request := by
      have := congrArg Prod.fst h
      simpa using this.symm
    rw [hreq, heapPop_root _ h0]
    have e1 := hok k hk
    have e2 := hok 0 h0
    have e3 := priAt_le_root _ hheap k hk
    unfold priAt at e3
    omega

/-! ## Scheduler sizes under interface calls -/

theorem fifo_size_enqueue (s : FIFOScheduler) (req : Request) :
    (s.Enqueue req).Size = s.Size + 1 := by
  simp [FIFOScheduler.Enqueue, FIFOScheduler.Size]

theorem lifo_size_enqueue (s : LIFOScheduler) (req : Request) :
    (s.Enqueue req).Size = s.Size + 1 := by
  simp [LIFOScheduler.Enqueue, LIFOScheduler.Size]

theorem priority_size_enqueue (s : PriorityScheduler) (req : Request) :
    (s.Enqueue req).Size = s.Size + 1 := by
  simp [PriorityScheduler.Enqueue, PriorityScheduler.Size, length_heapPush]

theorem fifo_size_dequeue (s : FIFOScheduler) :
    s.Dequeue.2.Size = s.Size - 1 := by
  unfold FIFOScheduler.Dequeue
  rcases hq : s.queue with _ | ⟨r, rest⟩ <;> simp [FIFOScheduler.Size, hq]

theorem lifo_size_dequeue (s : LIFOScheduler) :
    s.Dequeue.2.Size = s.Size - 1 := by
  unfold LIFOScheduler.Dequeue
  split
  · next h => simp only [beq_iff_eq] at h; simp [LIFOScheduler.Size, h]
  · simp [LIFOScheduler.Size, List.length_dropLast]

theorem priority_size_dequeue (s : PriorityScheduler) :
    s.Dequeue.2.Size = s.Size - 1 := by
  unfold PriorityScheduler.Dequeue
  split
  · next h => simp only [beq_iff_eq] at h; simp [PriorityScheduler.Size, h]
  · simp [PriorityScheduler.Size, length_heapPop]

theorem fifo_empty_iff (s : FIFOScheduler) : s.Empty = true ↔ s.Size = 0 := by
  simp [FIFOScheduler.Empty, FIFOScheduler.Size]

theorem lifo_empty_iff (s : LIFOScheduler) : s.Empty = true ↔ s.Size = 0 := by
  simp [LIFOScheduler.Empty, LIFOScheduler.Size]

theorem priority_empty_iff (s : PriorityScheduler) :
    s.Empty = true ↔ s.Size = 0 := by
  simp [PriorityScheduler.Empty, PriorityScheduler.Size]

/-- Size bookkeeping along any single-threaded op sequence, for the three
lock-based schedulers in lockstep. -/
theorem run_sizes : ∀ (ops : List SchedOp) (n m : Nat) (f : FIFOScheduler)
    (l : LIFOScheduler) (p : PriorityScheduler),
    m ≤ n → f.Size = n - m → l.Size = n - m → p.Size = n - m →
    (opsCounting (n, m) ops).2 ≤ (opsCounting (n, m) ops).1 ∧
    (runFIFO f ops).Size =
      (opsCounting (n, m) ops).1 - (opsCounting (n, m) ops).2 ∧
    (runLIFO l ops).Size =
      (opsCounting (n, m) ops).1 - (opsCounting (n, m) ops).2 ∧
    (runPriority p ops).Size =
      (opsCounting (n, m) ops).1 - (opsCounting (n, m) ops).2
  | [], n, m, f, l, p, hmn, hf, hl, hp => ⟨hmn, hf, hl, hp⟩
  | .enq req :: ops, n, m, f, l, p, hmn, hf, hl, hp => by
      simp only [opsCounting, runFIFO, runLIFO, runPriority]
      apply run_sizes ops (n + 1) m _ _ _ (by omega)
      · rw [fifo_size_enqueue, hf]; omega
      · rw [lifo_size_enqueue, hl]; omega
      · rw [priority_size_enqueue, hp]; omega
  | .deq :: ops, n, m, f, l, p, hmn, hf, hl, hp => by
      simp only [opsCounting, runFIFO, runLIFO, runPriority]
      by_cases hc : m < n
      · rw [if_pos hc]
        apply run_sizes ops n (m + 1) _ _ _ (by omega)
        · rw [fifo_size_dequeue, hf]; omega
        · rw [lifo_size_dequeue, hl]; omega
        · rw [priority_size_dequeue, hp]; omega
      · rw [if_neg hc]
        apply run_sizes ops n m _ _ _ hmn
        · rw [fifo_size_dequeue, hf]; omega
        · rw [lifo_size_dequeue, hl]; omega
        · rw [priority_size_dequeue, hp]; omega

/-- C6.  For the FIFO, LIFO and Priority schedulers under single-threaded
use, after any interleaved sequence of N enqueues and M counted dequeues
(dequeue attempts on an empty queue are not counted), `Size()` returns
exactly N - M with M ≤ N, and `Empty()` returns true exactly when
`Size()` is 0. -/
theorem spec_c6 : ∀ ops : List SchedOp,
    ((runFIFO NewFIFOScheduler ops).Size =
        (opsCounting (0, 0) ops).1 - (opsCounting (0, 0) ops).2 ∧
      ((runFIFO NewFIFOScheduler ops).Empty = true ↔
        (runFIFO NewFIFOScheduler ops).Size = 0)) ∧
    ((runLIFO NewLIFOScheduler ops).Size =
        (opsCounting (0, 0) ops).1 - (opsCounting (0, 0) ops).2 ∧
      ((runLIFO NewLIFOScheduler ops).Empty = true ↔
        (runLIFO NewLIFOScheduler ops).Size = 0)) ∧
    ((runPriority NewPriorityScheduler ops).Size =
        (opsCounting (0, 0) ops).1 - (opsCounting (0, 0) ops).2 ∧
      ((runPriority NewPriorityScheduler ops).Empty = true ↔
        (runPriority NewPriorityScheduler ops).Size = 0)) ∧
    (opsCounting (0, 0) ops).2 ≤ (opsCounting (0, 0) ops).1 := by
  intro ops
  have h := run_sizes ops 0 0 NewFIFOScheduler NewLIFOScheduler
    NewPriorityScheduler (le_refl 0) rfl rfl rfl
  exact ⟨⟨h.2.1, fifo_empty_iff _⟩, ⟨h.2.2.1, lifo_empty_iff _⟩,
    ⟨h.2.2.2, priority_empty_iff _⟩, h.1⟩

/-- C5.  Under single-threaded use, every dequeue of the priority
scheduler returns a task of maximal priority among those currently
enqueued; in particular enqueuing priorities [1,5,3] and dequeuing three
times yields the priority-5, then priority-3, then priority-1 task. -/
theorem spec_c5 :
    (∀ s : PriorityScheduler, PReach s → ∀ req s2,
        s.Dequeue = (some req, s2) →
        ∀ k, k < s.queue.length →
          (itemAt s.queue k).Request.Priority ≤ req.Priority) ∧
    (pqDemo3.Dequeue.1 = some reqPri5 ∧ pqDemoA.Dequeue.1 = some reqPri3 ∧
      pqDemoB.Dequeue.1 = some reqPri1 ∧ pqDemoB.Dequeue.2.queue = []) := by
  constructor
  · intro s hs req s2 h k hk
    exact dequeue_max s (preach_inv hs).1 (preach_inv hs).2 req s2 h k hk
  · exact ⟨by decide, by decide, by decide, by decide⟩

theorem spec_c5_witness :
    (itemAt pqDemo3.queue 0).Request.Priority ≤ reqPri5.Priority := by
  have hr : PReach pqDemo3 :=
    PReach.enq _ reqPri3 (PReach.enq _ reqPri5 (PReach.enq _ reqPri1 PReach.init))
  exact spec_c5.1 pqDemo3 hr reqPri5 pqDemoA (by decide) 0 (by decide)

/-! ## Worker polling loop -/

theorem shape_shift (o : WorkerObs) (T : List WorkerObs) (k2 : Nat)
    (hge : 100 ≤ k2)
    (hall : ∀ x ∈ T.drop (k2 - 100), x = WorkerObs.emptyIdle) :
    ∀ x ∈ (o :: T).drop (k2 + 1 - 100), x = WorkerObs.emptyIdle := by
  intro x hx
  have he : k2 + 1 - 100 = (k2 - 100) + 1 := by omega
  rw [he, List.drop_succ_cons] at hx
  exact hall x hx

theorem shape_all_to_drop (o : WorkerObs) (T : List WorkerObs) (k2 : Nat)
    (hge : 100 ≤ k2) (hall : ∀ x ∈ T, x = WorkerObs.emptyIdle) :
    ∀ x ∈ (o :: T).drop (k2 + 1 - 100), x = WorkerObs.emptyIdle := by
  intro x hx
  have he : k2 + 1 - 100 = (k2 - 100) + 1 := by omega
  rw [he, List.drop_succ_cons] at hx
  exact hall x (List.mem_of_mem_drop hx)

/-- When the worker loop exits, either every observation it consumed was
an empty poll (and the entry count plus the polls passed the threshold),
or the last 100 observations it consumed were all empty polls. -/
theorem workerRun_shape : ∀ (l : List WorkerObs) (c k : Nat),
    workerRun c l = some k →
    (100 ≤ c + k ∧ ∀ o ∈ l.take k, o = WorkerObs.emptyIdle) ∨
    (100 ≤ k ∧ ∀ o ∈ (l.take k).drop (k - 100), o = WorkerObs.emptyIdle)
  | [], _, _, h => by simp [workerRun] at h
  | o :: rest, c, k, h => by
      cases o with
      | dequeued r =>
          simp only [workerRun, workerStep] at h
          cases hrec : workerRun 0 rest with
          | none => rw [hrec] at h; simp at h
          | some k2 =>
              rw [hrec] at h
              simp at h
              subst h
              rcases workerRun_shape rest 0 k2 hrec with ⟨hge, hall⟩ | ⟨hge, hall⟩
              · refine Or.inr ⟨by omega, ?_⟩
                rw [List.take_succ_cons]
                exact shape_all_to_drop _ _ k2 (by omega) hall
              · refine Or.inr ⟨by omega, ?_⟩
                rw [List.take_succ_cons]
                exact shape_shift _ _ k2 hge hall
      | busyIdle =>
          simp only [workerRun, workerStep] at h
          cases hrec : workerRun 0 rest with
          | none => rw [hrec] at h; simp at h
          | some k2 =>
              rw [hrec] at h
              simp at h
              subst h
              rcases workerRun_shape rest 0 k2 hrec with ⟨hge, hall⟩ | ⟨hge, hall⟩
              · refine Or.inr ⟨by omega, ?_⟩
                rw [List.take_succ_cons]
                exact shape_all_to_drop _ _ k2 (by omega) hall
              · refine Or.inr ⟨by omega, ?_⟩
                rw [List.take_succ_cons]
                exact shape_shift _ _ k2 hge hall
      | emptyIdle =>
          simp only [workerRun, workerStep, maxEmptyCount] at h
          by_cases hth : 100 ≤ c + 1
          · rw [decide_eq_true hth] at h
            simp at h
            subst h
            refine Or.inl ⟨by omega, ?_⟩
            rw [List.take_succ_cons]
            intro x hx
            simp only [List.take_zero, List.mem_singleton] at hx
            exact hx
          · rw [decide_eq_false hth] at h
            simp at h
            cases hrec : workerRun (c + 1) rest with
            | none => rw [hrec] at h; simp at h
            | some k2 =>
                rw [hrec] at h
                simp at h
                subst h
                rcases workerRun_shape rest (c + 1) k2 hrec with ⟨hge, hall⟩ | ⟨hge, hall⟩
                · refine Or.inl ⟨by omega, ?_⟩
                  rw [List.take_succ_cons]
                  intro x hx
                  rcases List.mem_cons.mp hx with hx | hx
                  · exact hx
                  · exact hall x hx
                · refine Or.inr ⟨by omega, ?_⟩
                  rw [List.take_succ_cons]
                  exact shape_shift _ _ k2 hge hall

/-- C4.  The worker only exits its polling loop after 100 consecutive
empty-queue observations; a successful dequeue, or an empty dequeue while
the queue reports non-empty, resets the counter to zero; an empty-queue
observation that reaches the threshold exits the loop. -/
theorem spec_c4 :
    (∀ (l : List WorkerObs) (k : Nat), workerRun 0 l = some k →
        100 ≤ k ∧ ∀ o ∈ (l.take k).drop (k - 100), o = WorkerObs.emptyIdle) ∧
    (∀ (c : Nat) (r : Request),
        workerStep c (WorkerObs.dequeued r) = (0, false)) ∧
    (∀ c : Nat, workerStep c WorkerObs.busyIdle = (0, false)) ∧
    (∀ c : Nat, c + 1 < maxEmptyCount →
        workerStep c WorkerObs.emptyIdle = (c + 1, false)) ∧
    (∀ c : Nat, maxEmptyCount ≤ c + 1 →
        workerStep c WorkerObs.emptyIdle = (c + 1, true)) := by
  refine ⟨?_, fun c r => rfl, fun c => rfl, ?_, ?_⟩
  · intro l k h
    rcases workerRun_shape l 0 k h with ⟨hge, hall⟩ | ⟨hge, hall⟩
    · refine ⟨by omega, ?_⟩
      intro o ho
      exact hall o (List.mem_of_mem_drop ho)
    · exact ⟨hge, hall⟩
  · intro c hc
    simp only [workerStep, Prod.mk.injEq]
    exact ⟨trivial, decide_eq_false (by omega)⟩
  · intro c hc
    simp only [workerStep, Prod.mk.injEq]
    exact ⟨trivial, decide_eq_true hc⟩

theorem spec_c4_witness :
    (100 ≤ 100 ∧ ∀ o ∈ ((List.replicate 100 WorkerObs.emptyIdle).take 100).drop
        (100 - 100), o = WorkerObs.emptyIdle) ∧
    workerStep 99 WorkerObs.emptyIdle = (100, true) :=
  ⟨spec_c4.1 (List.replicate 100 WorkerObs.emptyIdle) 100 (by decide),
   spec_c4.2.2.2.2 99 (by decide)⟩

/-! ## Engine statistics balance -/

theorem updateStats_total (s : Stats) (v : Int) :
    updateStats s keyRequestTotal v =
      { s with RequestsTotal := s.RequestsTotal + v } := rfl

theorem updateStats_success (s : Stats) (v : Int) :
    updateStats s keyRequestSuccess v =
      { s with RequestsSuccess := s.RequestsSuccess + v } := rfl

theorem updateStats_failed (s : Stats) (v : Int) :
    updateStats s keyRequestFailed v =
      { s with RequestsFailed := s.RequestsFailed + v } := rfl

theorem updateStats_items (s : Stats) (v : Int) :
    updateStats s keyItemsScraped v =
      { s with ItemsScraped := s.ItemsScraped + v } := rfl

/-- One request cycle keeps the balance: the new total is matched by a
success, a failure, or a middleware drop. -/
theorem gap_processRequestWith {Item : Type} (env : EngineEnv Item)
    (k : Stats × Nat → List (ParseResult Item) → Stats × Nat)
    (hk : ∀ sd results, gap (k sd results) = gap sd)
    (sd : Stats × Nat) (req : Request) :
    gap (processRequestWith env k sd req) = gap sd := by
  unfold processRequestWith
  cases harw : applyRequestMW env.middlewares req with
  | none =>
      simp only [harw, gap, updateStats_total]
      omega
  | some req2 =>
      cases hdl : env.download req2 with
      | error e =>
          simp only [harw, hdl, gap, updateStats_total, updateStats_failed]
          omega
      | ok resp =>
          cases hrmw : applyResponseMW env.middlewares req2 resp with
          | none =>
              simp only [harw, hdl, hrmw, gap, updateStats_total,
                updateStats_success]
              omega
          | some resp2 =>
              simp only [harw, hdl, hrmw, hk]
              simp only [gap, updateStats_total, updateStats_success]
              omega

theorem gap_batchFilterMW {Item : Type} (env : EngineEnv Item) :
    ∀ (sd : Stats × Nat) (reqs : List Request),
    gap (batchFilterMW env sd reqs).1 =
      gap sd + ((batchFilterMW env sd reqs).2.length : Int)
  | sd, [] => by simp [batchFilterMW]
  | sd, req :: rest => by
      unfold batchFilterMW
      cases harw : applyRequestMW env.middlewares req with
      | none =>
          simp only [harw]
          rw [gap_batchFilterMW env _ rest]
          simp only [gap, updateStats_total]
          omega
      | some req2 =>
          simp only [harw, List.length_cons]
          rw [gap_batchFilterMW env _ rest]
          simp only [gap, updateStats_total]
          omega

theorem gap_batchDrain {Item : Type} (env : EngineEnv Item)
    (k : Stats × Nat → List (ParseResult Item) → Stats × Nat)
    (hk : ∀ sd results, gap (k sd results) = gap sd) :
    ∀ (sd : Stats × Nat) (ars : List AsyncResult),
    gap (batchDrain env k sd ars) = gap sd - (ars.length : Int)
  | sd, [] => by simp [batchDrain]
  | sd, ar :: rest => by
      unfold batchDrain
      cases herr : ar.Error with
      | some e =>
          simp only [herr]
          rw [gap_batchDrain env k hk _ rest]
          simp only [gap, updateStats_failed, List.length_cons]
          omega
      | none =>
          cases hresp : ar.Response with
          | none =>
              simp only [herr, hresp]
              rw [gap_batchDrain env k hk _ rest]
              simp only [gap, updateStats_failed, List.length_cons]
              omega
          | some resp =>
              cases hrmw : applyResponseMW env.middlewares ar.Request resp with
              | none =>
                  simp only [herr, hresp, hrmw]
                  rw [gap_batchDrain env k hk _ rest]
                  simp only [gap, updateStats_success, List.length_cons]
                  omega
              | some resp2 =>
                  simp only [herr, hresp, hrmw]
                  rw [gap_batchDrain env k hk _ rest, hk]
                  simp only [gap, updateStats_success, List.length_cons]
                  omega

theorem gap_processBatchWith {Item : Type} (env : EngineEnv Item)
    (k : Stats × Nat → List (ParseResult Item) → Stats × Nat)
    (hk : ∀ sd results, gap (k sd results) = gap sd)
    (sd : Stats × Nat) (reqs : List Request) :
    gap (processBatchWith env k sd reqs) = gap sd := by
  unfold processBatchWith
  rw [gap_batchDrain env k hk]
  simp only [DownloadBatch, List.length_map]
  rw [gap_batchFilterMW]
  omega

theorem gap_foldRequests {Item : Type} (env : EngineEnv Item)
    (k : Stats × Nat → List (ParseResult Item) → Stats × Nat)
    (hk : ∀ sd results, gap (k sd results) = gap sd) :
    ∀ (sd : Stats × Nat) (reqs : List Request),
    gap (foldRequests env k sd reqs) = gap sd
  | _, [] => rfl
  | sd, req :: rest => by
      unfold foldRequests
      rw [gap_foldRequests env k hk _ rest, gap_processRequestWith env k hk]

theorem gap_foldItems {Item : Type} (env : EngineEnv Item) :
    ∀ (sd : Stats × Nat) (items : List Item),
    gap (foldItems env sd items) = gap sd
  | _, [] => rfl
  | sd, v :: rest => by
      unfold foldItems
      rw [gap_foldItems env _ rest]
      simp only [processItemF, gap, updateStats_items]

theorem gap_processResultsF {Item : Type} (env : EngineEnv Item) :
    ∀ (fuel : Nat) (sd : Stats × Nat) (results : List (ParseResult Item)),
    gap (processResultsF env fuel sd results) = gap sd
  | 0, _, _ => rfl
  | fuel + 1, sd, results => by
      unfold processResultsF
      rw [gap_foldItems]
      split
      · exact gap_processBatchWith env _
          (fun sd2 r => gap_processResultsF env fuel sd2 r) sd _
      · exact gap_foldRequests env _
          (fun sd2 r => gap_processResultsF env fuel sd2 r) sd _

theorem gap_runF {Item : Type} (env : EngineEnv Item) (fuel : Nat)
    (seeds : List Request) : gap (runF env fuel seeds) = 0 := by
  unfold runF
  rw [gap_foldRequests env _ (fun sd2 r => gap_processResultsF env fuel sd2 r)]
  simp [gap]

/-- C1 (amended).  After any completed run, RequestsSuccess +
RequestsFailed + D = RequestsTotal, where D counts the requests dropped
by request middleware; the originally claimed equality is the case
D = 0. -/
theorem spec_c1 : ∀ (Item : Type) (env : EngineEnv Item) (fuel : Nat)
    (seeds : List Request),
    (runF env fuel seeds).1.RequestsSuccess +
      (runF env fuel seeds).1.RequestsFailed +
      ((runF env fuel seeds).2 : Int) =
      (runF env fuel seeds).1.RequestsTotal := by
  intro Item env fuel seeds
  have h := gap_runF env fuel seeds
  simp only [gap] at h
  omega

/-- C1 counterexample.  A completed run whose single seed request is
dropped by a middleware reports RequestsTotal = 1 with
RequestsSuccess = RequestsFailed = 0, so the claimed equality fails. -/
theorem spec_c1_counterexample :
    ¬ ((runF cexEnv 1 [cexSeed]).1.RequestsSuccess +
        (runF cexEnv 1 [cexSeed]).1.RequestsFailed =
        (runF cexEnv 1 [cexSeed]).1.RequestsTotal) := by
  decide

/-- C8.  When the download of a task fails, `processRequest` adds exactly
one to the request and failure counters and returns; the continuation
that would parse, route or enqueue is never invoked (the result does not
depend on it), and the error is consumed locally (the function returns a
plain state, nothing propagates). -/
theorem spec_c8 : ∀ (Item : Type) (env : EngineEnv Item)
    (k1 k2 : Stats × Nat → List (ParseResult Item) → Stats × Nat)
    (sd : Stats × Nat) (req req2 : Request) (e : String),
    applyRequestMW env.middlewares req = some req2 →
    env.download req2 = Except.error e →
    processRequestWith env k1 sd req =
      (updateStats (updateStats sd.1 keyRequestTotal 1) keyRequestFailed 1,
        sd.2) ∧
    processRequestWith env k1 sd req = processRequestWith env k2 sd req := by
  intro Item env k1 k2 sd req req2 e h1 h2
  constructor
  · unfold processRequestWith
    simp only [h1, h2]
  · unfold processRequestWith
    simp only [h1, h2]

theorem spec_c8_witness :
    processRequestWith failEnv contA ({}, 0) cexSeed =
      (updateStats (updateStats {} keyRequestTotal 1) keyRequestFailed 1, 0) ∧
    processRequestWith failEnv contA ({}, 0) cexSeed =
      processRequestWith failEnv contB ({}, 0) cexSeed :=
  spec_c8 Unit failEnv contA contB ({}, 0) cexSeed cexSeed failMsg rfl rfl

/-! ## Result router -/

theorem splitResults_spec {Item : Type} :
    ∀ results : List (ParseResult Item),
    splitResults results =
      (results.filterMap toReqOpt, results.filterMap toItemOpt)
  | [] => rfl
  | .req r :: rest => by
      simp [splitResults, splitResults_spec rest, toReqOpt, toItemOpt,
        List.filterMap_cons]
  | .item v :: rest => by
      simp [splitResults, splitResults_spec rest, toReqOpt, toItemOpt,
        List.filterMap_cons]

/-- C3.  The router partitions every extraction-result list into its
tasks and records; a list with strictly more than one task sends the
tasks to the direct batched-fetch path (records still go through the
shared buffer), while a list with at most one task delivers every
element through the shared result-delivery buffer. -/
theorem spec_c3 : ∀ (Item : Type) (results : List (ParseResult Item)),
    (splitResults results).1 = results.filterMap toReqOpt ∧
    (splitResults results).2 = results.filterMap toItemOpt ∧
    (1 < (results.filterMap (@toReqOpt Item)).length →
      (routeResults results).batchDispatch = results.filterMap toReqOpt ∧
      (routeResults results).pooled =
        (results.filterMap toItemOpt).map ParseResult.item) ∧
    ((results.filterMap (@toReqOpt Item)).length ≤ 1 →
      (routeResults results).batchDispatch = [] ∧
      (routeResults results).pooled =
        (results.filterMap toReqOpt).map ParseResult.req ++
          (results.filterMap toItemOpt).map ParseResult.item) := by
  intro Item results
  have hs := splitResults_spec results
  refine ⟨by rw [hs], by rw [hs], ?_, ?_⟩
  · intro h1
    unfold routeResults
    rw [hs]
    simp only []
    rw [if_pos h1]
    exact ⟨rfl, rfl⟩
  · intro h1
    unfold routeResults
    rw [hs]
    simp only []
    rw [if_neg (by omega)]
    exact ⟨rfl, rfl⟩

theorem spec_c3_witness :
    ((routeResults routeDemoTwo).batchDispatch =
        routeDemoTwo.filterMap toReqOpt ∧
      (routeResults routeDemoTwo).pooled =
        (routeDemoTwo.filterMap toItemOpt).map ParseResult.item) ∧
    ((routeResults routeDemoOne).batchDispatch = [] ∧
      (routeResults routeDemoOne).pooled =
        (routeDemoOne.filterMap toReqOpt).map ParseResult.req ++
          (routeDemoOne.filterMap toItemOpt).map ParseResult.item) :=
  ⟨(spec_c3 Unit routeDemoTwo).2.2.1 (by decide),
   (spec_c3 Unit routeDemoOne).2.2.2 (by decide)⟩

/-! ## Batched download -/

theorem mkAsyncResult_request (r : Request) (x : Except String Response) :
    (mkAsyncResult r x).Request = r := by
  cases x <;> rfl

theorem batch_map_request (download : Request → Except String Response) :
    ∀ reqs : List Request,
    (reqs.map (fun r => mkAsyncResult r (download r))).map
      (fun a => a.Request) = reqs
  | [] => rfl
  | r :: rest => by
      simp [mkAsyncResult_request, batch_map_request download rest]

/-- C2.  `DownloadBatch` over N requests returns a stream whose buffer
capacity is N and which carries exactly one outcome per request — N
outcomes in total, the i-th belonging to the i-th request — before the
stream is closed (the model's `sent` list is the complete delivered
content at close). -/
theorem spec_c2 : ∀ (download : Request → Except String Response)
    (reqs : List Request),
    (DownloadBatch download reqs).capacity = reqs.length ∧
    (DownloadBatch download reqs).sent.length = reqs.length ∧
    (DownloadBatch download reqs).sent.map (fun a => a.Request) = reqs := by
  intro download reqs
  refine ⟨rfl, ?_, ?_⟩
  · simp [DownloadBatch]
  · exact batch_map_request download reqs

/-! ## Redirect bound -/

theorem clientFollow_count : ∀ (req : Request) (chain : Nat)
    (via : List Request), via.length ≤ 10 →
    clientFollow req chain via =
      if via.length + chain ≤ 10 then Except.ok (via.length + chain)
      else Except.error redirectErrorMessage
  | req, 0, via, h => by
      rw [if_pos (by omega : via.length + 0 ≤ 10)]
      simp [clientFollow]
  | req, chain + 1, via, h => by
      unfold clientFollow checkRedirect
      by_cases h10 : 10 ≤ via.length
      · rw [if_pos h10]
        simp only []
        rw [if_neg (by omega : ¬ via.length + (chain + 1) ≤ 10)]
      · rw [if_neg h10]
        simp only []
        rw [clientFollow_count req chain (via ++ [req])
          (by simp [List.length_append]; omega)]
        simp only [List.length_append, List.length_singleton]
        have he : via.length + 1 + chain = via.length + (chain + 1) := by omega
        rw [he]

/-- C7 (amended).  The `CheckRedirect` hook fails a fetch exactly when
the request chain handed to it has reached 10 entries; since that chain
already holds the initial request when the hook is first consulted, a
fetch whose target issues `chain` redirects succeeds precisely when
`chain ≤ 9` (making `chain + 1` requests in total) and otherwise stops
with the redirect error value once 9 redirects have been followed and a
10th is attempted; a failed download is reported as an error value
attached to the async outcome, never as a fault. -/
theorem spec_c7 :
    (∀ via : List Request, (checkRedirect via).isSome ↔ 10 ≤ via.length) ∧
    (∀ (req : Request) (chain : Nat),
      clientFetch req chain =
        if chain ≤ 9 then Except.ok (chain + 1)
        else Except.error redirectErrorMessage) ∧
    (∀ (r : Request) (e : String),
      mkAsyncResult r (Except.error e) =
        { Request := r, Response := none, Error := some e }) := by
  refine ⟨?_, ?_, fun r e => rfl⟩
  · intro via
    unfold checkRedirect
    split
    · next h => simpa using h
    · next h => simpa using h
  · intro req chain
    unfold clientFetch
    rw [clientFollow_count req chain [req] (by simp)]
    simp only [List.length_singleton]
    by_cases h : chain ≤ 9
    · have he : 1 + chain = chain + 1 := by omega
      rw [if_pos (by omega : 1 + chain ≤ 10), he, if_pos h]
    · rw [if_neg (by omega : ¬ 1 + chain ≤ 10), if_neg h]

/-- C7 counterexample.  The claimed bound of 10 followed redirects is one
too high: a fetch against a chain of 10 redirects fails with the
redirect error (the hook refuses the 10th redirect, since the 10-entry
chain it sees holds the initial request plus only 9 followed redirects),
while a chain of 9 redirects succeeds. -/
theorem spec_c7_counterexample :
    clientFetch cexSeed 10 = Except.error redirectErrorMessage ∧
    clientFetch cexSeed 9 = Except.ok 10 :=
  ⟨rfl, rfl⟩

/-! ## Retry middleware frame -/

/-- C9.  `RetryMiddleware.ProcessResponse` returns the response exactly
as received; its only state change is adding one to the request's
`RetryTimes` when the status code is in the retry set and the budget is
not exhausted; every other request field is untouched, and nothing is
re-enqueued (the hook has no access to any scheduler). -/
theorem spec_c9 : ∀ (m : RetryMiddleware) (req : Request) (resp : Response),
    (m.ProcessResponse req resp).2 = resp ∧
    ((m.ProcessResponse req resp).1 = req ∨
      (m.ProcessResponse req resp).1 =
        { req with RetryTimes := req.RetryTimes + 1 }) ∧
    ((m.ProcessResponse req resp).1.RetryTimes =
      if m.shouldRetry resp.StatusCode ∧ req.RetryTimes < m.maxRetries
      then req.RetryTimes + 1 else req.RetryTimes) ∧
    (m.ProcessResponse req resp).1.Method = req.Method ∧
    (m.ProcessResponse req resp).1.URL = req.URL ∧
    (m.ProcessResponse req resp).1.Headers = req.Headers ∧
    (m.ProcessResponse req resp).1.Body = req.Body ∧
    (m.ProcessResponse req resp).1.Priority = req.Priority ∧
    (m.ProcessResponse req resp).1.DontRetry = req.DontRetry ∧
    (m.ProcessResponse req resp).1.Callback = req.Callback ∧
    (m.ProcessResponse req resp).1.Proxy = req.Proxy ∧
    (m.ProcessResponse req resp).1.Timeout = req.Timeout ∧
    (m.ProcessResponse req resp).1.DontRedirect = req.DontRedirect := by
  intro m req resp
  unfold RetryMiddleware.ProcessResponse
  split
  · next h =>
      exact ⟨rfl, Or.inr rfl, rfl, rfl, rfl, rfl, rfl, rfl,
        rfl, rfl, rfl, rfl, rfl⟩
  · next h =>
      exact ⟨rfl, Or.inl rfl, rfl, rfl, rfl, rfl, rfl, rfl,
        rfl, rfl, rfl, rfl, rfl⟩

/-! ## Channel scheduler overflow -/

/-- C10.  An `Enqueue` that finds the channel buffer full returns with
the size counter and buffer unchanged and the task deferred to a
detached send (never dropped); the counter is only incremented when the
detached send completes; consequently `Empty()` can report true while a
task is still pending delivery, as the concrete trace shows. -/
theorem spec_c10 :
    (∀ (s : ChannelScheduler) (req : Request),
      s.capacity ≤ s.buffer.length →
      (s.Enqueue req).Size = s.Size ∧ (s.Enqueue req).buffer = s.buffer ∧
        req ∈ (s.Enqueue req).pendingSends) ∧
    (∀ (s : ChannelScheduler) (req : Request) (rest : List Request),
      s.pendingSends = req :: rest → s.buffer.length < s.capacity →
      s.deliverPending.Size = s.Size + 1 ∧ req ∈ s.deliverPending.buffer ∧
        s.deliverPending.pendingSends = rest) ∧
    (chanDemo.Empty = true ∧ chanDemo.Size = 0 ∧
      chanDemo.pendingSends = [reqPri5]) := by
  refine ⟨?_, ?_, by decide, by decide, by decide⟩
  · intro s req h
    unfold ChannelScheduler.Enqueue
    rw [if_neg (by omega)]
    exact ⟨rfl, rfl, by simp⟩
  · intro s req rest hp hlen
    unfold ChannelScheduler.deliverPending
    simp only [hp]
    rw [if_pos hlen]
    exact ⟨by simp [ChannelScheduler.Size], by simp, rfl⟩

theorem spec_c10_witness :
    ((chanFull.Enqueue reqPri5).Size = chanFull.Size ∧
      (chanFull.Enqueue reqPri5).buffer = chanFull.buffer ∧
      reqPri5 ∈ (chanFull.Enqueue reqPri5).pendingSends) ∧
    (chanDemo.deliverPending.Size = chanDemo.Size + 1 ∧
      reqPri5 ∈ chanDemo.deliverPending.buffer ∧
      chanDemo.deliverPending.pendingSends = []) :=
  ⟨spec_c10.1 chanFull reqPri5 (by decide),
   spec_c10.2.1 chanDemo reqPri5 [] (by decide) (by decide)⟩

end Scrago
